import Mathlib

/-
Shallow embedding of src/VCSim/Vcs_oops.cpp (a minimal version-control core).

Modelling notes:
* C++ `File*` pointer identity is modelled by an explicit heap: a file id
  (`Nat`) allocated from a counter, mapped to a `File` record.  The repository's
  staging set and the VCS working set hold file ids, exactly as the C++ holds
  raw pointers into shared objects.
* `std::map<string, unique_ptr<File>>` (ordered by key) is modelled by a
  key-sorted association list built with `mapInsert`.
* Disk I/O is an external collaborator (spec section 6): the disk is an
  association list from path to content, `loadFromDisk`'s byte-level line
  normalisation is abstracted to reading the stored content, and the archive
  writes performed inside `Repository::commit` are recorded as an event trace
  in the commit outcome (one `(fileName, stagedContent)` entry per processed
  file, in processing order).
* The wall-clock timestamp inside `Commit::Commit` is an external input that
  no claim concerns; it is not modelled.
-/

namespace VCSim

/-- Working file (class `File` / `TextFile`): name, committed `content`,
`stagedContent`, and the `modified` (dirty) flag. -/
structure File where
  name : String
  content : String
  stagedContent : String
  modified : Bool
deriving Repr, DecidableEq

/-- `File::updateContent`: store the edit in `stagedContent` and set the dirty flag. -/
def File.updateContent (f : File) (c : String) : File :=
  { f with stagedContent := c, modified := true }

/-- `File::clearModified`: clear the dirty flag and commit the staged content. -/
def File.clearModified (f : File) : File :=
  { f with modified := false, content := f.stagedContent }

/-- `TextFile::clone`: a value copy of the file (a fresh heap object at the call sites). -/
def File.clone (f : File) : File := f

/-- The heap of live `File` objects: file id to file record. -/
abbrev Heap := List (Nat × File)

/-- Dereference a file id. -/
def heapGet : Heap → Nat → Option File
  | [], _ => none
  | (j, f) :: rest, i => if i = j then some f else heapGet rest i

/-- Overwrite the file object behind an id (no-op when the id is not live). -/
def heapSet : Heap → Nat → File → Heap
  | [], _, _ => []
  | (j, g) :: rest, i, f => if i = j then (j, f) :: rest else (j, g) :: heapSet rest i f

/-- Write a named file's content to the canonical disk location. -/
def diskWrite : List (String × String) → String → String → List (String × String)
  | [], n, c => [(n, c)]
  | (n', c') :: rest, n, c =>
    if n = n' then (n, c) :: rest else (n', c') :: diskWrite rest n c

/-- Read a named file from disk (`File::loadFromDisk`, content abstracted verbatim). -/
def diskRead : List (String × String) → String → Option String
  | [], _ => none
  | (n', c') :: rest, n => if n = n' then some c' else diskRead rest n

/-- Lexicographic string comparison (the `operator<` of `std::string` used as
the `std::map` key order), computed on the character lists. -/
def strLt (a b : String) : Bool := decide (a.data < b.data)

/-- Insertion into the key-ordered association list modelling
`std::map<string, unique_ptr<File>>`: `m[k] = v` keeps keys strictly sorted and
overwrites an existing binding of the same key. -/
def mapInsert : List (String × File) → String → File → List (String × File)
  | [], k, v => [(k, v)]
  | (k', v') :: rest, k, v =>
    if strLt k k' then (k, v) :: (k', v') :: rest
    else if k = k' then (k, v) :: rest
    else (k', v') :: mapInsert rest k v

/-- Class `Commit`: id, message and the name-keyed snapshot map of cloned files.
(The wall-clock timestamp is an unmodelled external input.) -/
structure Commit where
  id : Nat
  message : String
  files : List (String × File)
deriving Repr, DecidableEq

/-- `Commit::Commit`: clone every staged file into the snapshot map, keyed by name. -/
def Commit.make (i : Nat) (msg : String) (staged : List File) : Commit :=
  { id := i, message := msg
    files := staged.foldl (fun m f => mapInsert m f.name (File.clone f)) [] }

/-- `Commit::getSnapshot`: a fresh map of clones of the stored snapshot files. -/
def Commit.getSnapshot (c : Commit) : List (String × File) :=
  c.files.foldl (fun m p => mapInsert m p.1 (File.clone p.2)) []

/-- The whole program state: the file heap plus the singleton `Repository`'s
fields (`commits`, `stagedFiles`, `nextCommitId`), the `VCS` controller's
`workingFiles`, and the canonical disk. -/
structure VcsState where
  heap : Heap
  nextFileId : Nat
  disk : List (String × String)
  commits : List Commit
  stagedFiles : List Nat
  workingFiles : List Nat
  nextCommitId : Nat
deriving Repr, DecidableEq

/-- Outcome of `Repository::commit`: the "nothing to commit" report, or success
with the new commit id and the per-file archive-write trace (file name and the
staged content written to the commit archive, in processing order). -/
inductive CommitOutcome where
  | nothingToCommit : CommitOutcome
  | committed : Nat → List (String × String) → CommitOutcome
deriving Repr, DecidableEq

/-- `f->isModified()` for the file behind a staged id (dangling ids read as not modified). -/
def fileModifiedAt (s : VcsState) (fid : Nat) : Bool :=
  match heapGet s.heap fid with
  | some f => f.modified
  | none => false

/-- `Repository::addFile`: append the file to the staging set unless the same
object (pointer identity) is already staged. -/
def Repository.addFile (s : VcsState) (fid : Nat) : VcsState :=
  if fid ∈ s.stagedFiles then s
  else { s with stagedFiles := s.stagedFiles ++ [fid] }

/-- The subset D selected by `Repository::commit`: the staged files whose
dirty flag is set, in staging order. -/
def dirtySelection (s : VcsState) : List Nat :=
  s.stagedFiles.filter (fileModifiedAt s)

/-- The per-file loop body of `Repository::commit`, iterated over the selected
dirty files in order: write the staged content to the commit archive (recorded
in the returned trace), apply `clearModified`, and `saveToDisk` the now
committed content. -/
def commitApplyAll : VcsState → List Nat → VcsState × List (String × String)
  | s, [] => (s, [])
  | s, fid :: rest =>
    match heapGet s.heap fid with
    | none => commitApplyAll s rest
    | some f =>
      let s2 : VcsState :=
        { s with
            heap := heapSet s.heap fid (File.clearModified f)
            disk := diskWrite s.disk f.name (File.clearModified f).content }
      let r := commitApplyAll s2 rest
      (r.1, (f.name, f.stagedContent) :: r.2)

/-- The successful branch of `Repository::commit`: process every dirty staged
file, build the `Commit` from the post-apply file objects, append it to the
history, unstage exactly the processed files, and advance `nextCommitId`. -/
def commitCore (s : VcsState) (msg : String) : VcsState × CommitOutcome :=
  let editableFiles := dirtySelection s
  let r := commitApplyAll s editableFiles
  let newCommit := Commit.make s.nextCommitId msg (editableFiles.filterMap (heapGet r.1.heap))
  ({ r.1 with
      commits := r.1.commits ++ [newCommit]
      stagedFiles := r.1.stagedFiles.filter (fun fid => !(decide (fid ∈ editableFiles)))
      nextCommitId := s.nextCommitId + 1 },
   CommitOutcome.committed s.nextCommitId r.2)

/-- `Repository::commit`: select the dirty staged files; if none, report
"nothing to commit" and change nothing, otherwise run the successful branch. -/
def Repository.commit (s : VcsState) (msg : String) : VcsState × CommitOutcome :=
  if dirtySelection s = [] then
    (s, CommitOutcome.nothingToCommit)
  else commitCore s msg

/-- The lookup loop of `Repository::checkout`: first commit with the given id. -/
def findCommit : List Commit → Nat → Option Commit
  | [], _ => none
  | c :: rest, i => if c.id = i then some c else findCommit rest i

/-- The restore loop of `Repository::checkout`: push each snapshot clone into
the (previously cleared) working set as a fresh heap object and write its
content to its canonical disk path. -/
def restoreFiles : VcsState → List (String × File) → VcsState
  | s, [] => s
  | s, (_, f) :: rest =>
    let fid := s.nextFileId
    let s2 : VcsState :=
      { s with
          heap := (fid, f) :: s.heap
          nextFileId := fid + 1
          workingFiles := s.workingFiles ++ [fid]
          disk := diskWrite s.disk f.name f.content }
    restoreFiles s2 rest

/-- `Repository::checkout`: look the commit up by id; on success replace the
working set wholesale with clones of its snapshots (returns `true`), otherwise
report "Commit ID not found!" and change nothing (returns `false`). -/
def Repository.checkout (s : VcsState) (commitId : Nat) : VcsState × Bool :=
  match findCommit s.commits commitId with
  | some c => (restoreFiles { s with workingFiles := [] } (Commit.getSnapshot c), true)
  | none => (s, false)

/-- `VCS::editFile`: `updateContent` on the file object, then `addFile` it. -/
def VCS.editFile (s : VcsState) (fid : Nat) (newContent : String) : VcsState :=
  let s1 :=
    match heapGet s.heap fid with
    | none => s
    | some f => { s with heap := heapSet s.heap fid (File.updateContent f newContent) }
  Repository.addFile s1 fid

/-- The `add` branch of `VCS::runCommand`: load the file from disk as a fresh
object (or, when absent, optionally create it empty and optionally edit it
right away, per the interactive prompts), push it into `workingFiles` if the
object is not already there, and stage it. -/
def VCS.runAdd (s : VcsState) (fname : String) (create : Bool) (editNow : Option String) :
    VcsState :=
  match diskRead s.disk fname with
  | some content =>
    let fid := s.nextFileId
    let s1 : VcsState :=
      { s with heap := (fid, File.mk fname content content false) :: s.heap
               nextFileId := fid + 1 }
    let s2 := if fid ∈ s1.workingFiles then s1
              else { s1 with workingFiles := s1.workingFiles ++ [fid] }
    Repository.addFile s2 fid
  | none =>
    if create then
      let fid := s.nextFileId
      let s1 : VcsState :=
        { s with heap := (fid, File.mk fname "" "" false) :: s.heap
                 nextFileId := fid + 1
                 disk := diskWrite s.disk fname "" }
      let s2 :=
        match editNow with
        | some c => VCS.editFile s1 fid c
        | none => s1
      let s3 := if fid ∈ s2.workingFiles then s2
                else { s2 with workingFiles := s2.workingFiles ++ [fid] }
      Repository.addFile s3 fid
    else s

/-- The lookup loop of the `edit` branch of `VCS::runCommand`: first working
file with the given name. -/
def findWorkingByName (s : VcsState) (fname : String) : Option Nat :=
  s.workingFiles.find? (fun fid =>
    match heapGet s.heap fid with
    | some f => f.name == fname
    | none => false)

/-- The `edit` branch of `VCS::runCommand`: edit the first working file with
the given name (the new content stands in for the interactive input); report
"File not found in working directory!" otherwise. -/
def VCS.runEdit (s : VcsState) (fname newContent : String) : VcsState :=
  match findWorkingByName s fname with
  | some fid => VCS.editFile s fid newContent
  | none => s

/-- One user command of the `VCS` command loop.  `add` carries the interactive
prompt answers (create if absent? edit now with which content?); `edit` carries
the content the user would type. -/
inductive Cmd where
  | add : String → Bool → Option String → Cmd
  | edit : String → String → Cmd
  | commit : String → Cmd
  | log : Cmd
  | checkout : Nat → Cmd
deriving Repr, DecidableEq

/-- `VCS::runCommand` dispatch (state effect only; `log` is read-only). -/
def step (s : VcsState) : Cmd → VcsState
  | Cmd.add fname create editNow => VCS.runAdd s fname create editNow
  | Cmd.edit fname c => VCS.runEdit s fname c
  | Cmd.commit msg => (Repository.commit s msg).1
  | Cmd.log => s
  | Cmd.checkout i => (Repository.checkout s i).1

/-- Run a command sequence. -/
def runCmds (s : VcsState) (cs : List Cmd) : VcsState :=
  cs.foldl step s

/-- The fresh program state over a given disk: empty heap, history, staging set
and working set; `Repository::Repository` sets `nextCommitId` to 1. -/
def initState (d : List (String × String)) : VcsState :=
  { heap := [], nextFileId := 0, disk := d, commits := [], stagedFiles := []
    workingFiles := [], nextCommitId := 1 }

/-- A state reachable by some command sequence from a fresh repository. -/
def Reachable (s : VcsState) : Prop :=
  ∃ d cs, s = runCmds (initState d) cs

/-- The live file records behind the working set ids, in working-set order. -/
def workingFilesVals (s : VcsState) : List File :=
  s.workingFiles.filterMap (heapGet s.heap)

/-- Name and committed content of each working file, in working-set order. -/
def workingSet (s : VcsState) : List (String × String) :=
  s.workingFiles.filterMap (fun fid => (heapGet s.heap fid).map (fun f => (f.name, f.content)))

/-- Names of the staged files, in staging order. -/
def stagedNames (s : VcsState) : List String :=
  s.stagedFiles.filterMap (fun fid => (heapGet s.heap fid).map File.name)

/-- The archive-write trace of a commit outcome. -/
def archiveTrace : CommitOutcome → List (String × String)
  | CommitOutcome.nothingToCommit => []
  | CommitOutcome.committed _ tr => tr

/-- Did `Repository::commit` create a commit? -/
def commitSucceeded (s : VcsState) (msg : String) : Bool :=
  match (Repository.commit s msg).2 with
  | CommitOutcome.nothingToCommit => false
  | CommitOutcome.committed _ _ => true

/-- Is the key strictly below the first key of the association list? -/
def ltHeadKey (k : String) : List (String × File) → Bool
  | [] => true
  | q :: _ => strLt k q.1

/-- Are the keys of the association list strictly sorted? -/
def keysSorted : List (String × File) → Bool
  | [] => true
  | p :: rest => ltHeadKey p.1 rest && keysSorted rest

/-- Is the name list weakly sorted (the spec's "deterministic order by name")? -/
def namesSorted : List String → Bool
  | [] => true
  | a :: rest =>
    (match rest with
     | [] => true
     | b :: _ => strLt a b || a == b) && namesSorted rest

/-- The state invariant maintained by every command from a fresh repository:
commit ids are exactly 1..n in history order, `nextCommitId` is n+1, and every
stored snapshot map is key-sorted, clean (dirty flags cleared before cloning)
and keyed by the snapshot file's own name. -/
def Inv (s : VcsState) : Prop :=
  s.commits.map Commit.id = List.range' 1 s.commits.length ∧
  s.nextCommitId = s.commits.length + 1 ∧
  (∀ c ∈ s.commits, keysSorted c.files = true) ∧
  (∀ c ∈ s.commits, ∀ p ∈ c.files, p.2.modified = false) ∧
  (∀ c ∈ s.commits, ∀ p ∈ c.files, p.1 = p.2.name)

/-- Example disk: one file `a.txt` with content `hello` (spec section 8 scenario). -/
def dEx : List (String × String) := [("a.txt", "hello")]

/-- Example session: add `a.txt`, edit it to `hi`, commit (spec section 8 scenario). -/
def csEx : List Cmd := [Cmd.add "a.txt" false none, Cmd.edit "a.txt" "hi", Cmd.commit "first"]

/-- The state after the example session. -/
def sEx : VcsState := runCmds (initState dEx) csEx

/-- The commit produced by the example session. -/
def cEx : Commit := ⟨1, "first", [("a.txt", ⟨"a.txt", "hi", "hi", false⟩)]⟩

/-- The example session stopped just before the commit. -/
def sPre : VcsState := runCmds (initState dEx) [Cmd.add "a.txt" false none, Cmd.edit "a.txt" "hi"]

/-- The state after only adding `a.txt` (staged but clean). -/
def sClean : VcsState := runCmds (initState dEx) [Cmd.add "a.txt" false none]

/-- The state after running `add a.txt` twice on the same disk: each `add`
loads the file into a fresh object, so two distinct staged entries share the
name `a.txt`. -/
def sDupAdd : VcsState :=
  runCmds (initState [("a.txt", "hello")]) [Cmd.add "a.txt" false none, Cmd.add "a.txt" false none]

/-- A state with two dirty files staged in the order `b.txt`, `a.txt`
(reverse alphabetical), to exercise the commit processing order. -/
def sTwoDirty : VcsState :=
  runCmds (initState [("b.txt", "B"), ("a.txt", "A")])
    [Cmd.add "b.txt" false none, Cmd.add "a.txt" false none,
     Cmd.edit "b.txt" "B2", Cmd.edit "a.txt" "A2"]

end VCSim

namespace VCSim

theorem clone_eq (f : File) : File.clone f = f := rfl

theorem clearModified_idem (f : File) :
    File.clearModified (File.clearModified f) = File.clearModified f := rfl

theorem clearModified_name (f : File) : (File.clearModified f).name = f.name := rfl

theorem clearModified_stagedContent (f : File) :
    (File.clearModified f).stagedContent = f.stagedContent := rfl

theorem clearModified_content (f : File) :
    (File.clearModified f).content = f.stagedContent := rfl

theorem clearModified_modified (f : File) : (File.clearModified f).modified = false := rfl

theorem strLt_iff (a b : String) : strLt a b = true ↔ a < b := by
  rw [strLt, decide_eq_true_iff]
  exact String.lt_iff_toList_lt.symm

theorem strLt_asymm {a b : String} (h : strLt a b = true) : strLt b a = false := by
  rw [Bool.eq_false_iff]
  intro hba
  exact lt_asymm ((strLt_iff a b).mp h) ((strLt_iff b a).mp hba)

theorem strLt_ne {a b : String} (h : strLt a b = true) : b ≠ a :=
  ne_of_gt ((strLt_iff a b).mp h)

theorem strLt_trans {a b c : String} (hab : strLt a b = true) (hbc : strLt b c = true) :
    strLt a c = true :=
  (strLt_iff a c).mpr (lt_trans ((strLt_iff a b).mp hab) ((strLt_iff b c).mp hbc))

theorem strLt_of_not {a b : String} (h1 : ¬ strLt a b = true) (h2 : a ≠ b) :
    strLt b a = true := by
  rcases lt_trichotomy a b with h | h | h
  · exact absurd ((strLt_iff a b).mpr h) h1
  · exact absurd h h2
  · exact (strLt_iff b a).mpr h

theorem heapGet_heapSet (h : Heap) (i j : Nat) (g : File) :
    heapGet (heapSet h j g) i = if i = j then (heapGet h j).map (fun _ => g) else heapGet h i := by
  induction h with
  | nil => by_cases hij : i = j <;> simp [heapSet, heapGet, hij]
  | cons q rest ih =>
    obtain ⟨j', f'⟩ := q
    by_cases hjj : j = j'
    · subst hjj
      by_cases hij : i = j <;> simp [heapSet, heapGet, hij]
    · by_cases hij : i = j'
      · subst hij
        have hij2 : ¬ i = j := fun he => hjj he.symm
        simp [heapSet, heapGet, hjj, hij2]
      · simp [heapSet, heapGet, hjj, hij, ih]

theorem filterMap_congr_mem {α β : Type} {l : List α} {f g : α → Option β}
    (h : ∀ a ∈ l, f a = g a) : l.filterMap f = l.filterMap g :=
  List.filterMap_congr h

end VCSim

namespace VCSim

theorem commitApplyAll_frame (l : List Nat) (s : VcsState) :
    (commitApplyAll s l).1.commits = s.commits ∧
    (commitApplyAll s l).1.nextCommitId = s.nextCommitId ∧
    (commitApplyAll s l).1.stagedFiles = s.stagedFiles ∧
    (commitApplyAll s l).1.workingFiles = s.workingFiles ∧
    (commitApplyAll s l).1.nextFileId = s.nextFileId := by
  induction l generalizing s with
  | nil => simp [commitApplyAll]
  | cons fid rest ih =>
    cases hf : heapGet s.heap fid with
    | none => simpa [commitApplyAll, hf] using ih s
    | some f => simpa [commitApplyAll, hf] using ih _

theorem commitApplyAll_heapGet (l : List Nat) (s : VcsState) (fid : Nat) :
    heapGet (commitApplyAll s l).1.heap fid =
      if fid ∈ l then (heapGet s.heap fid).map File.clearModified
      else heapGet s.heap fid := by
  induction l generalizing s with
  | nil => simp [commitApplyAll]
  | cons fid0 rest ih =>
    cases hf : heapGet s.heap fid0 with
    | none =>
      have hstep : (commitApplyAll s (fid0 :: rest)).1 = (commitApplyAll s rest).1 := by
        simp [commitApplyAll, hf]
      rw [hstep, ih]
      by_cases hfid : fid = fid0
      · subst hfid
        by_cases hmem : fid ∈ rest <;> simp [hmem, hf]
      · simp [List.mem_cons, hfid]
    | some f =>
      have hstep : (commitApplyAll s (fid0 :: rest)).1 =
          (commitApplyAll
            { s with
                heap := heapSet s.heap fid0 (File.clearModified f)
                disk := diskWrite s.disk f.name (File.clearModified f).content } rest).1 := by
        simp [commitApplyAll, hf]
      rw [hstep, ih]
      by_cases hfid : fid = fid0
      · subst hfid
        by_cases hmem : fid ∈ rest <;>
          simp [hmem, heapGet_heapSet, hf, clearModified_idem]
      · simp [heapGet_heapSet, hfid, List.mem_cons]

theorem commitApplyAll_trace (l : List Nat) (s : VcsState) :
    (commitApplyAll s l).2 =
      l.filterMap (fun fid => (heapGet s.heap fid).map (fun f => (f.name, f.stagedContent))) := by
  induction l generalizing s with
  | nil => simp [commitApplyAll]
  | cons fid0 rest ih =>
    cases hf : heapGet s.heap fid0 with
    | none => simp [commitApplyAll, hf, ih, List.filterMap_cons]
    | some f =>
      have hpt : ∀ fid, (heapGet (heapSet s.heap fid0 (File.clearModified f)) fid).map
            (fun g => (g.name, g.stagedContent)) =
          (heapGet s.heap fid).map (fun g => (g.name, g.stagedContent)) := by
        intro fid
        rw [heapGet_heapSet]
        by_cases hfe : fid = fid0
        · subst hfe
          simp [hf, File.clearModified]
        · simp [hfe]
      have hrw : rest.filterMap (fun fid =>
            (heapGet (heapSet s.heap fid0 (File.clearModified f)) fid).map
              (fun g => (g.name, g.stagedContent))) =
          rest.filterMap (fun fid =>
            (heapGet s.heap fid).map (fun g => (g.name, g.stagedContent))) :=
        filterMap_congr_mem (fun a _ => hpt a)
      simp only [commitApplyAll, hf]
      rw [ih, hrw]
      simp [List.filterMap_cons, hf]

end VCSim

namespace VCSim

theorem mapInsert_lt_eq {k k' : String} {v v' : File} {rest : List (String × File)}
    (h1 : strLt k k' = true) :
    mapInsert ((k', v') :: rest) k v = (k, v) :: (k', v') :: rest := by
  simp [mapInsert, h1]

theorem mapInsert_self_eq {k : String} {v v' : File} {rest : List (String × File)}
    (h1 : ¬ strLt k k = true) :
    mapInsert ((k, v') :: rest) k v = (k, v) :: rest := by
  simp [mapInsert, h1]

theorem mapInsert_gt_eq {k k' : String} {v v' : File} {rest : List (String × File)}
    (h1 : ¬ strLt k k' = true) (h2 : ¬ k = k') :
    mapInsert ((k', v') :: rest) k v = (k', v') :: mapInsert rest k v := by
  simp [mapInsert, h1, h2]

theorem mapInsert_mem {m : List (String × File)} {k : String} {v : File} {p : String × File}
    (hp : p ∈ mapInsert m k v) : p = (k, v) ∨ p ∈ m := by
  induction m with
  | nil => simpa [mapInsert] using hp
  | cons q rest ih =>
    obtain ⟨k', v'⟩ := q
    by_cases h1 : strLt k k' = true
    · rw [mapInsert_lt_eq h1] at hp
      rcases List.mem_cons.mp hp with h | h
      · exact Or.inl h
      · exact Or.inr h
    · by_cases h2 : k = k'
      · subst h2
        rw [mapInsert_self_eq h1] at hp
        rcases List.mem_cons.mp hp with h | h
        · exact Or.inl h
        · exact Or.inr (List.mem_cons_of_mem _ h)
      · rw [mapInsert_gt_eq h1 h2] at hp
        rcases List.mem_cons.mp hp with h | h
        · exact Or.inr (by simp [h])
        · rcases ih h with h' | h'
          · exact Or.inl h'
          · exact Or.inr (List.mem_cons_of_mem _ h')

theorem ltHeadKey_mapInsert {a k : String} {m : List (String × File)} {v : File}
    (hak : strLt a k = true) (ham : ltHeadKey a m = true) :
    ltHeadKey a (mapInsert m k v) = true := by
  cases m with
  | nil => simpa [mapInsert, ltHeadKey] using hak
  | cons q rest =>
    obtain ⟨k', v'⟩ := q
    by_cases h1 : strLt k k' = true
    · rw [mapInsert_lt_eq h1]
      simpa [ltHeadKey] using hak
    · by_cases h2 : k = k'
      · subst h2
        rw [mapInsert_self_eq h1]
        simpa [ltHeadKey] using hak
      · rw [mapInsert_gt_eq h1 h2]
        simpa [ltHeadKey] using ham

theorem keysSorted_cons {p : String × File} {rest : List (String × File)} :
    keysSorted (p :: rest) = (ltHeadKey p.1 rest && keysSorted rest) := rfl

theorem keysSorted_mapInsert {m : List (String × File)} {k : String} {v : File}
    (hm : keysSorted m = true) : keysSorted (mapInsert m k v) = true := by
  induction m with
  | nil => simp [mapInsert, keysSorted, ltHeadKey]
  | cons q rest ih =>
    obtain ⟨k', v'⟩ := q
    rw [keysSorted_cons, Bool.and_eq_true] at hm
    obtain ⟨hhead, hrest⟩ := hm
    by_cases h1 : strLt k k' = true
    · rw [mapInsert_lt_eq h1, keysSorted_cons, Bool.and_eq_true]
      refine ⟨by simpa [ltHeadKey] using h1, ?_⟩
      rw [keysSorted_cons, Bool.and_eq_true]
      exact ⟨hhead, hrest⟩
    · by_cases h2 : k = k'
      · subst h2
        rw [mapInsert_self_eq h1, keysSorted_cons, Bool.and_eq_true]
        exact ⟨hhead, hrest⟩
      · have hk'k : strLt k' k = true := strLt_of_not h1 h2
        rw [mapInsert_gt_eq h1 h2, keysSorted_cons, Bool.and_eq_true]
        exact ⟨ltHeadKey_mapInsert hk'k hhead, ih hrest⟩

theorem keysSorted_lt_all {p : String × File} {l : List (String × File)}
    (h : keysSorted (p :: l) = true) : ∀ q ∈ l, strLt p.1 q.1 = true := by
  induction l generalizing p with
  | nil => simp
  | cons q rest ih =>
    rw [keysSorted_cons, Bool.and_eq_true] at h
    obtain ⟨h1, h2⟩ := h
    have hpq : strLt p.1 q.1 = true := by simpa [ltHeadKey] using h1
    intro r hr
    rcases List.mem_cons.mp hr with rfl | hr'
    · exact hpq
    · exact strLt_trans hpq (ih h2 r hr')

theorem mapInsert_cons_of_lt {k k' : String} {v v' : File} {m : List (String × File)}
    (h : strLt k k' = true) :
    mapInsert ((k, v) :: m) k' v' = (k, v) :: mapInsert m k' v' := by
  have h1 : ¬ strLt k' k = true := by simp [strLt_asymm h]
  have h2 : ¬ k' = k := strLt_ne h
  simp [mapInsert, h1, h2]

theorem foldl_mapInsert_cons (l : List (String × File)) (k : String) (v : File)
    (m : List (String × File)) (hlt : ∀ q ∈ l, strLt k q.1 = true) :
    l.foldl (fun acc p => mapInsert acc p.1 (File.clone p.2)) ((k, v) :: m) =
      (k, v) :: l.foldl (fun acc p => mapInsert acc p.1 (File.clone p.2)) m := by
  induction l generalizing m with
  | nil => rfl
  | cons q rest ih =>
    simp only [List.foldl_cons]
    rw [mapInsert_cons_of_lt (hlt q (by simp))]
    exact ih _ (fun r hr => hlt r (by simp [hr]))

theorem rebuild_sorted (m : List (String × File)) (hm : keysSorted m = true) :
    m.foldl (fun acc p => mapInsert acc p.1 (File.clone p.2)) [] = m := by
  induction m with
  | nil => rfl
  | cons q rest ih =>
    obtain ⟨k, v⟩ := q
    have hrest : keysSorted rest = true := by
      rw [keysSorted_cons, Bool.and_eq_true] at hm
      exact hm.2
    simp only [List.foldl_cons]
    have hbase : mapInsert [] k (File.clone v) = [(k, v)] := rfl
    rw [hbase, foldl_mapInsert_cons rest k v [] (keysSorted_lt_all hm), ih hrest]

theorem getSnapshot_eq_files {c : Commit} (h : keysSorted c.files = true) :
    Commit.getSnapshot c = c.files :=
  rebuild_sorted c.files h

theorem foldl_make_sorted (l : List File) (m : List (String × File))
    (hm : keysSorted m = true) :
    keysSorted (l.foldl (fun acc f => mapInsert acc f.name (File.clone f)) m) = true := by
  induction l generalizing m with
  | nil => exact hm
  | cons f rest ih => exact ih _ (keysSorted_mapInsert hm)

theorem make_sorted (i : Nat) (msg : String) (l : List File) :
    keysSorted (Commit.make i msg l).files = true :=
  foldl_make_sorted l [] rfl

theorem foldl_make_mem (l : List File) (m : List (String × File)) (p : String × File)
    (hp : p ∈ l.foldl (fun acc f => mapInsert acc f.name (File.clone f)) m) :
    p ∈ m ∨ ∃ f ∈ l, p = (f.name, f) := by
  induction l generalizing m with
  | nil => exact Or.inl hp
  | cons f rest ih =>
    rcases ih _ hp with h | h
    · rcases mapInsert_mem h with h' | h'
      · exact Or.inr ⟨f, by simp, by simpa [File.clone] using h'⟩
      · exact Or.inl h'
    · obtain ⟨g, hg, hpg⟩ := h
      exact Or.inr ⟨g, by simp [hg], hpg⟩

theorem make_mem {i : Nat} {msg : String} {l : List File} {p : String × File}
    (hp : p ∈ (Commit.make i msg l).files) : ∃ f ∈ l, p = (f.name, f) := by
  rcases foldl_make_mem l [] p hp with h | h
  · simp at h
  · exact h

theorem make_id (i : Nat) (msg : String) (l : List File) :
    (Commit.make i msg l).id = i := rfl

end VCSim

namespace VCSim

theorem addFile_commits (s : VcsState) (fid : Nat) :
    (Repository.addFile s fid).commits = s.commits := by
  unfold Repository.addFile
  split <;> rfl

theorem addFile_nextCommitId (s : VcsState) (fid : Nat) :
    (Repository.addFile s fid).nextCommitId = s.nextCommitId := by
  unfold Repository.addFile
  split <;> rfl

theorem editFile_commits (s : VcsState) (fid : Nat) (c : String) :
    (VCS.editFile s fid c).commits = s.commits := by
  unfold VCS.editFile
  cases heapGet s.heap fid <;> simp [addFile_commits]

theorem editFile_nextCommitId (s : VcsState) (fid : Nat) (c : String) :
    (VCS.editFile s fid c).nextCommitId = s.nextCommitId := by
  unfold VCS.editFile
  cases heapGet s.heap fid <;> simp [addFile_nextCommitId]

theorem runEdit_commits (s : VcsState) (fname c : String) :
    (VCS.runEdit s fname c).commits = s.commits := by
  unfold VCS.runEdit
  cases findWorkingByName s fname <;> simp [editFile_commits]

theorem runEdit_nextCommitId (s : VcsState) (fname c : String) :
    (VCS.runEdit s fname c).nextCommitId = s.nextCommitId := by
  unfold VCS.runEdit
  cases findWorkingByName s fname <;> simp [editFile_nextCommitId]

theorem runAdd_commits (s : VcsState) (fname : String) (create : Bool)
    (editNow : Option String) :
    (VCS.runAdd s fname create editNow).commits = s.commits := by
  cases hd : diskRead s.disk fname with
  | some content =>
    simp only [VCS.runAdd, hd]
    rw [addFile_commits]
    split <;> rfl
  | none =>
    cases create with
    | false => simp [VCS.runAdd, hd]
    | true =>
      cases editNow with
      | none =>
        simp only [VCS.runAdd, hd, if_true]
        rw [addFile_commits]
        split <;> rfl
      | some c =>
        simp only [VCS.runAdd, hd, if_true]
        rw [addFile_commits]
        split <;> simp [editFile_commits]

theorem runAdd_nextCommitId (s : VcsState) (fname : String) (create : Bool)
    (editNow : Option String) :
    (VCS.runAdd s fname create editNow).nextCommitId = s.nextCommitId := by
  cases hd : diskRead s.disk fname with
  | some content =>
    simp only [VCS.runAdd, hd]
    rw [addFile_nextCommitId]
    split <;> rfl
  | none =>
    cases create with
    | false => simp [VCS.runAdd, hd]
    | true =>
      cases editNow with
      | none =>
        simp only [VCS.runAdd, hd, if_true]
        rw [addFile_nextCommitId]
        split <;> rfl
      | some c =>
        simp only [VCS.runAdd, hd, if_true]
        rw [addFile_nextCommitId]
        split <;> simp [editFile_nextCommitId]

theorem restoreFiles_frame (snap : List (String × File)) (s : VcsState) :
    (restoreFiles s snap).commits = s.commits ∧
    (restoreFiles s snap).stagedFiles = s.stagedFiles ∧
    (restoreFiles s snap).nextCommitId = s.nextCommitId := by
  induction snap generalizing s with
  | nil => simp [restoreFiles]
  | cons p rest ih =>
    obtain ⟨k, f⟩ := p
    simpa [restoreFiles] using ih _

theorem checkout_frame (s : VcsState) (i : Nat) :
    (Repository.checkout s i).1.commits = s.commits ∧
    (Repository.checkout s i).1.stagedFiles = s.stagedFiles ∧
    (Repository.checkout s i).1.nextCommitId = s.nextCommitId := by
  unfold Repository.checkout
  cases findCommit s.commits i with
  | some c => simpa using restoreFiles_frame _ _
  | none => simp

theorem findCommit_eq_none {cs : List Commit} {i : Nat} (h : ∀ c ∈ cs, c.id ≠ i) :
    findCommit cs i = none := by
  induction cs with
  | nil => rfl
  | cons c rest ih =>
    simp only [findCommit, h c (by simp), if_false]
    exact ih (fun c' hc' => h c' (by simp [hc']))

theorem findCommit_mem {cs : List Commit} {C : Commit}
    (hnd : (cs.map Commit.id).Nodup) (hC : C ∈ cs) : findCommit cs C.id = some C := by
  induction cs with
  | nil => simp at hC
  | cons c rest ih =>
    rw [List.map_cons, List.nodup_cons] at hnd
    rcases List.mem_cons.mp hC with rfl | hC'
    · simp [findCommit]
    · have hne : ¬ c.id = C.id := by
        intro he
        exact hnd.1 (he ▸ List.mem_map_of_mem Commit.id hC')
      simp only [findCommit, hne, if_false]
      exact ih hnd.2 hC'

end VCSim

namespace VCSim

theorem commitCore_commits (s : VcsState) (msg : String) :
    (commitCore s msg).1.commits =
      s.commits ++ [Commit.make s.nextCommitId msg
        ((dirtySelection s).filterMap (heapGet (commitApplyAll s (dirtySelection s)).1.heap))] := by
  simp only [commitCore]
  rw [(commitApplyAll_frame _ _).1]

theorem commitCore_nextCommitId (s : VcsState) (msg : String) :
    (commitCore s msg).1.nextCommitId = s.nextCommitId + 1 := by
  simp only [commitCore]

theorem commitCore_stagedFiles (s : VcsState) (msg : String) :
    (commitCore s msg).1.stagedFiles =
      s.stagedFiles.filter (fun fid => !(decide (fid ∈ dirtySelection s))) := by
  simp only [commitCore]
  rw [(commitApplyAll_frame _ _).2.2.1]

theorem commitCore_heap (s : VcsState) (msg : String) :
    (commitCore s msg).1.heap = (commitApplyAll s (dirtySelection s)).1.heap := by
  simp only [commitCore]

theorem commitCore_outcome (s : VcsState) (msg : String) :
    (commitCore s msg).2 =
      CommitOutcome.committed s.nextCommitId (commitApplyAll s (dirtySelection s)).2 := by
  simp only [commitCore]

theorem Inv_init (d : List (String × String)) : Inv (initState d) := by
  refine ⟨rfl, rfl, ?_, ?_, ?_⟩ <;> intro c hc <;> exact absurd hc (by simp [initState])

theorem Inv_of_history {s t : VcsState} (hc : t.commits = s.commits)
    (hn : t.nextCommitId = s.nextCommitId) (hs : Inv s) : Inv t := by
  obtain ⟨h1, h2, h3, h4, h5⟩ := hs
  refine ⟨?_, ?_, ?_, ?_, ?_⟩
  · rw [hc, h1]
  · rw [hn, hc, h2]
  · rw [hc]; exact h3
  · rw [hc]; exact h4
  · rw [hc]; exact h5

theorem Inv_commit (s : VcsState) (msg : String) (hs : Inv s) :
    Inv (Repository.commit s msg).1 := by
  by_cases hE : dirtySelection s = []
  · unfold Repository.commit
    rw [if_pos hE]
    exact hs
  · unfold Repository.commit
    rw [if_neg hE]
    obtain ⟨h1, h2, h3, h4, h5⟩ := hs
    have hcommits := commitCore_commits s msg
    have hnext := commitCore_nextCommitId s msg
    refine ⟨?_, ?_, ?_, ?_, ?_⟩
    · rw [hcommits, List.map_append, List.length_append, h1, h2]
      simp only [List.map_cons, List.map_nil, make_id, List.length_cons, List.length_nil]
      rw [List.range'_concat]
      simp [Nat.add_comm]
    · rw [hnext, hcommits, h2]
      simp
    · rw [hcommits]
      intro c hc
      rcases List.mem_append.mp hc with h | h
      · exact h3 c h
      · rw [List.mem_singleton.mp h]
        exact make_sorted _ _ _
    · rw [hcommits]
      intro c hc
      rcases List.mem_append.mp hc with h | h
      · exact h4 c h
      · rw [List.mem_singleton.mp h]
        intro p hp
        obtain ⟨f, hf, rfl⟩ := make_mem hp
        obtain ⟨fid, hfidE, hget⟩ := List.mem_filterMap.mp hf
        rw [commitApplyAll_heapGet, if_pos hfidE] at hget
        obtain ⟨f0, _, hclear⟩ := Option.map_eq_some'.mp hget
        rw [← hclear]
        exact clearModified_modified f0
    · rw [hcommits]
      intro c hc
      rcases List.mem_append.mp hc with h | h
      · exact h5 c h
      · rw [List.mem_singleton.mp h]
        intro p hp
        obtain ⟨f, _, rfl⟩ := make_mem hp
        rfl

theorem Inv_step (s : VcsState) (c : Cmd) (hs : Inv s) : Inv (step s c) := by
  cases c with
  | add fname create editNow =>
    exact Inv_of_history (runAdd_commits s fname create editNow)
      (runAdd_nextCommitId s fname create editNow) hs
  | edit fname c =>
    exact Inv_of_history (runEdit_commits s fname c) (runEdit_nextCommitId s fname c) hs
  | commit msg => exact Inv_commit s msg hs
  | log => exact hs
  | checkout i =>
    exact Inv_of_history (checkout_frame s i).1 (checkout_frame s i).2.2 hs

theorem Inv_runCmds (d : List (String × String)) (cs : List Cmd) :
    Inv (runCmds (initState d) cs) := by
  suffices h : ∀ (l : List Cmd) (s : VcsState), Inv s → Inv (runCmds s l) from
    h cs _ (Inv_init d)
  intro l
  induction l with
  | nil => intro s hs; exact hs
  | cons c rest ih => intro s hs; exact ih _ (Inv_step s c hs)

theorem Inv_reachable {s : VcsState} (hs : Reachable s) : Inv s := by
  obtain ⟨d, cs, rfl⟩ := hs
  exact Inv_runCmds d cs

theorem workingSet_eq (s : VcsState) :
    workingSet s = (workingFilesVals s).map (fun f => (f.name, f.content)) := by
  unfold workingSet workingFilesVals
  rw [List.map_filterMap]

theorem restoreFiles_spec (snap : List (String × File)) (s : VcsState)
    (hlt : ∀ fid ∈ s.workingFiles, fid < s.nextFileId)
    (hres : ∀ fid ∈ s.workingFiles, (heapGet s.heap fid).isSome = true) :
    workingFilesVals (restoreFiles s snap) = workingFilesVals s ++ snap.map Prod.snd ∧
    (∀ fid ∈ (restoreFiles s snap).workingFiles,
      fid < (restoreFiles s snap).nextFileId) ∧
    (∀ fid ∈ (restoreFiles s snap).workingFiles,
      (heapGet (restoreFiles s snap).heap fid).isSome = true) := by
  induction snap generalizing s with
  | nil =>
    exact ⟨by simp [restoreFiles], by simpa [restoreFiles] using hlt,
      by simpa [restoreFiles] using hres⟩
  | cons p rest ih =>
    obtain ⟨k, f⟩ := p
    set s2 : VcsState :=
      { s with
          heap := (s.nextFileId, f) :: s.heap
          nextFileId := s.nextFileId + 1
          workingFiles := s.workingFiles ++ [s.nextFileId]
          disk := diskWrite s.disk f.name f.content } with hs2
    have hstep : restoreFiles s ((k, f) :: rest) = restoreFiles s2 rest := rfl
    have hlt2 : ∀ fid ∈ s2.workingFiles, fid < s2.nextFileId := by
      intro fid hfid
      simp only [hs2, List.mem_append, List.mem_singleton] at hfid
      rcases hfid with h | h
      · exact Nat.lt_succ_of_lt (hlt fid h)
      · simp [hs2, h]
    have hres2 : ∀ fid ∈ s2.workingFiles, (heapGet s2.heap fid).isSome = true := by
      intro fid hfid
      simp only [hs2, List.mem_append, List.mem_singleton] at hfid
      rcases hfid with h | h
      · have hne : ¬ fid = s.nextFileId := Nat.ne_of_lt (hlt fid h)
        simp only [hs2, heapGet, hne, if_false]
        exact hres fid h
      · simp [hs2, heapGet, h]
    have hvals2 : workingFilesVals s2 = workingFilesVals s ++ [f] := by
      simp only [hs2, workingFilesVals]
      rw [List.filterMap_append]
      congr 1
      · apply filterMap_congr_mem
        intro fid hfid
        have hne : ¬ fid = s.nextFileId := Nat.ne_of_lt (hlt fid hfid)
        simp [heapGet, hne]
      · simp [heapGet]
    obtain ⟨hv, hl, hr⟩ := ih s2 hlt2 hres2
    rw [hstep]
    refine ⟨?_, hl, hr⟩
    rw [hv, hvals2]
    simp

end VCSim

namespace VCSim

theorem addFile_mem_eq {s : VcsState} {fid : Nat} (h : fid ∈ s.stagedFiles) :
    Repository.addFile s fid = s := by
  unfold Repository.addFile
  rw [if_pos h]

theorem checkout_eq_of_find {s : VcsState} {i : Nat} {c : Commit}
    (h : findCommit s.commits i = some c) :
    Repository.checkout s i =
      (restoreFiles { s with workingFiles := [] } (Commit.getSnapshot c), true) := by
  unfold Repository.checkout
  rw [h]

theorem map_id_range_get (cs : List Commit) :
    ∀ (off : Nat), cs.map Commit.id = List.range' (off + 1) cs.length →
    ∀ k, ∀ hk : k < cs.length, (cs.get ⟨k, hk⟩).id = off + k + 1 := by
  induction cs with
  | nil => intro off _ k hk; exact absurd hk (by simp)
  | cons c rest ih =>
    intro off h k hk
    have hrange : List.range' (off + 1) (rest.length + 1) =
        (off + 1) :: List.range' (off + 2) rest.length := rfl
    rw [List.map_cons, List.length_cons, hrange] at h
    injection h with hhead htail
    cases k with
    | zero => simpa using hhead
    | succ k0 =>
      have hk0 : k0 < rest.length := Nat.lt_of_succ_lt_succ hk
      have := ih (off + 1) (by simpa [Nat.add_assoc] using htail) k0 hk0
      simp only [List.get_cons_succ]
      omega

/-- C4: committing when no staged file is dirty is a strict no-op: the outcome
is the "nothing to commit" report and the whole state (history length,
next-commit-id counter, staging set, heap, working set, disk) is unchanged. -/
theorem commit_noop_when_clean (s : VcsState) (msg : String)
    (h : ∀ fid ∈ s.stagedFiles, fileModifiedAt s fid = false) :
    Repository.commit s msg = (s, CommitOutcome.nothingToCommit) := by
  have hE : dirtySelection s = [] := by
    unfold dirtySelection
    rw [List.filter_eq_nil_iff]
    intro a ha
    simp [h a ha]
  unfold Repository.commit
  rw [if_pos hE]

theorem commit_noop_when_clean_witness :
    Repository.commit sClean "msg" = (sClean, CommitOutcome.nothingToCommit) :=
  commit_noop_when_clean sClean "msg" (by decide)

/-- C8: checkout of an id not present in the history reports failure (the
"Commit ID not found!" outcome, returned as `false`) and leaves the entire
state unchanged, so the repository remains usable. -/
theorem checkout_notfound_noop (s : VcsState) (i : Nat)
    (h : ∀ c ∈ s.commits, c.id ≠ i) :
    Repository.checkout s i = (s, false) := by
  unfold Repository.checkout
  rw [findCommit_eq_none h]

theorem checkout_notfound_noop_witness :
    Repository.checkout sEx 99 = (sEx, false) :=
  checkout_notfound_noop sEx 99 (by decide)

/-- C7: every file included in a successful commit has its dirty flag cleared
immediately after, and its committed content equals the staged content it
contributed. -/
theorem commit_clears_dirty_flag (s : VcsState) (msg : String) (fid : Nat) (f0 : File)
    (hget : heapGet s.heap fid = some f0) (hstaged : fid ∈ s.stagedFiles)
    (hmod : f0.modified = true) :
    heapGet (Repository.commit s msg).1.heap fid = some (File.clearModified f0) ∧
    (File.clearModified f0).modified = false ∧
    (File.clearModified f0).content = f0.stagedContent := by
  have hfidE : fid ∈ dirtySelection s := by
    unfold dirtySelection
    rw [List.mem_filter]
    exact ⟨hstaged, by simp [fileModifiedAt, hget, hmod]⟩
  have hne : ¬ dirtySelection s = [] := by
    intro he
    rw [he] at hfidE
    exact absurd hfidE (List.not_mem_nil fid)
  unfold Repository.commit
  rw [if_neg hne, commitCore_heap, commitApplyAll_heapGet, if_pos hfidE, hget]
  exact ⟨rfl, rfl, rfl⟩

theorem commit_clears_dirty_flag_witness :
    heapGet (Repository.commit sPre "first").1.heap 0 =
      some (File.clearModified ⟨"a.txt", "hello", "hi", true⟩) ∧
    (File.clearModified (⟨"a.txt", "hello", "hi", true⟩ : File)).modified = false ∧
    (File.clearModified (⟨"a.txt", "hello", "hi", true⟩ : File)).content =
      (⟨"a.txt", "hello", "hi", true⟩ : File).stagedContent :=
  commit_clears_dirty_flag sPre "first" 0 ⟨"a.txt", "hello", "hi", true⟩
    (by decide) (by decide) rfl

/-- C9: a successful commit removes exactly the dirty-file subset D from the
staging set: the staging set afterwards is the original with all of D filtered
out, every member of D is unstaged, and every staged-but-clean file stays. -/
theorem commit_unstages_exactly_dirty (s : VcsState) (msg : String)
    (h : commitSucceeded s msg = true) :
    (Repository.commit s msg).1.stagedFiles =
      s.stagedFiles.filter (fun fid => !(decide (fid ∈ dirtySelection s))) ∧
    (∀ fid ∈ dirtySelection s, fid ∉ (Repository.commit s msg).1.stagedFiles) ∧
    (∀ fid ∈ s.stagedFiles, fileModifiedAt s fid = false →
      fid ∈ (Repository.commit s msg).1.stagedFiles) := by
  have hne : ¬ dirtySelection s = [] := by
    intro he
    unfold commitSucceeded Repository.commit at h
    rw [if_pos he] at h
    simp at h
  have hstf : (Repository.commit s msg).1.stagedFiles =
      s.stagedFiles.filter (fun fid => !(decide (fid ∈ dirtySelection s))) := by
    unfold Repository.commit
    rw [if_neg hne]
    exact commitCore_stagedFiles s msg
  refine ⟨hstf, ?_, ?_⟩
  · intro fid hfid
    rw [hstf]
    intro hmem
    rw [List.mem_filter] at hmem
    simp [hfid] at hmem
  · intro fid hfid hclean
    rw [hstf, List.mem_filter]
    refine ⟨hfid, ?_⟩
    have hnotd : ¬ fid ∈ dirtySelection s := by
      intro hmem
      unfold dirtySelection at hmem
      rw [List.mem_filter] at hmem
      rw [hclean] at hmem
      simp at hmem
    simp [hnotd]

theorem commit_unstages_exactly_dirty_witness :
    (Repository.commit sPre "first").1.stagedFiles =
      sPre.stagedFiles.filter (fun fid => !(decide (fid ∈ dirtySelection sPre))) :=
  (commit_unstages_exactly_dirty sPre "first" (by decide)).1

/-- C6 counterexample: with two dirty files staged in the order `b.txt`,
`a.txt`, the commit processes (archives) them in exactly that staging order,
which is not sorted by file name — refuting the claim that the processing
order is sorted by name and independent of staging order. -/
theorem commit_not_sorted_by_name_cex :
    (archiveTrace (Repository.commit sTwoDirty "msg").2).map Prod.fst = ["b.txt", "a.txt"] ∧
    namesSorted ((archiveTrace (Repository.commit sTwoDirty "msg").2).map Prod.fst) = false :=
  ⟨by decide, by decide⟩

/-- C6 amended: during a commit the selected dirty files are processed
(commitApply, archive write, canonical disk write) in their staging-set order
— deterministic for a given staging sequence, but dependent on it and not
sorted by file name; each archive entry carries the file's staged content. -/
theorem commit_processes_in_staging_order (s : VcsState) (msg : String) :
    archiveTrace (Repository.commit s msg).2 =
      (dirtySelection s).filterMap
        (fun fid => (heapGet s.heap fid).map (fun f => (f.name, f.stagedContent))) := by
  by_cases hE : dirtySelection s = []
  · unfold Repository.commit
    rw [if_pos hE, hE]
    rfl
  · unfold Repository.commit
    rw [if_neg hE, commitCore_outcome]
    unfold archiveTrace
    exact commitApplyAll_trace _ _

/-- C5 counterexample: running `add a.txt` twice (the file exists on disk)
loads two distinct objects and stages both, so the staging set holds two
entries named `a.txt` — refuting idempotence of add by file name. -/
theorem add_same_name_twice_cex :
    stagedNames sDupAdd = ["a.txt", "a.txt"] ∧
    ¬ (stagedNames sDupAdd).count "a.txt" = 1 :=
  ⟨by decide, by decide⟩

/-- C5 amended: `Repository::addFile` is idempotent by object identity, not by
name: adding the same file object twice is a no-op the second time (no error),
and when the object was not already multiply staged the staging set ends with
exactly one entry for it.  (Two `add` commands for the same name instead stage
two distinct objects, see the counterexample.) -/
theorem addFile_idempotent_by_identity (s : VcsState) (fid : Nat)
    (h : s.stagedFiles.count fid ≤ 1) :
    Repository.addFile (Repository.addFile s fid) fid = Repository.addFile s fid ∧
    (Repository.addFile (Repository.addFile s fid) fid).stagedFiles.count fid = 1 := by
  by_cases hmem : fid ∈ s.stagedFiles
  · rw [addFile_mem_eq hmem, addFile_mem_eq hmem]
    refine ⟨rfl, ?_⟩
    have h1 : ¬ s.stagedFiles.count fid = 0 := fun h0 =>
      absurd hmem (List.count_eq_zero.mp h0)
    omega
  · have hadd : Repository.addFile s fid = { s with stagedFiles := s.stagedFiles ++ [fid] } := by
      unfold Repository.addFile
      rw [if_neg hmem]
    have hmem2 : fid ∈ (Repository.addFile s fid).stagedFiles := by
      rw [hadd]
      simp
    refine ⟨addFile_mem_eq hmem2, ?_⟩
    rw [addFile_mem_eq hmem2, hadd]
    simp [List.count_append, List.count_eq_zero.mpr hmem]

theorem addFile_idempotent_by_identity_witness :
    Repository.addFile (Repository.addFile (initState dEx) 0) 0 =
      Repository.addFile (initState dEx) 0 ∧
    (Repository.addFile (Repository.addFile (initState dEx) 0) 0).stagedFiles.count 0 = 1 :=
  addFile_idempotent_by_identity (initState dEx) 0 (by decide)

/-- C2: commit snapshots are content-frozen.  Edits (`updateContent` via the
edit command or directly on a working file) never change any stored commit,
and a successful commit stores, for every snapshot it contains, exactly the
content that was staged at the moment of its creation. -/
theorem commit_snapshots_frozen :
    (∀ (s : VcsState) (fid : Nat) (c : String), (VCS.editFile s fid c).commits = s.commits) ∧
    (∀ (s : VcsState) (fname c : String), (VCS.runEdit s fname c).commits = s.commits) ∧
    (∀ (s : VcsState) (msg : String), commitSucceeded s msg = true →
      ∃ C, (Repository.commit s msg).1.commits = s.commits ++ [C] ∧
        ∀ p ∈ C.files, ∃ fid f0, fid ∈ s.stagedFiles ∧ heapGet s.heap fid = some f0 ∧
          f0.modified = true ∧ p.1 = f0.name ∧ p.2.content = f0.stagedContent ∧
          p.2.stagedContent = f0.stagedContent) := by
  refine ⟨editFile_commits, runEdit_commits, ?_⟩
  intro s msg h
  have hne : ¬ dirtySelection s = [] := by
    intro he
    unfold commitSucceeded Repository.commit at h
    rw [if_pos he] at h
    simp at h
  refine ⟨Commit.make s.nextCommitId msg
      ((dirtySelection s).filterMap (heapGet (commitApplyAll s (dirtySelection s)).1.heap)),
      ?_, ?_⟩
  · unfold Repository.commit
    rw [if_neg hne]
    exact commitCore_commits s msg
  · intro p hp
    obtain ⟨f, hf, rfl⟩ := make_mem hp
    obtain ⟨fid, hfidE, hget⟩ := List.mem_filterMap.mp hf
    rw [commitApplyAll_heapGet, if_pos hfidE] at hget
    obtain ⟨f0, hf0, hclear⟩ := Option.map_eq_some'.mp hget
    unfold dirtySelection at hfidE
    rw [List.mem_filter] at hfidE
    have hmod : f0.modified = true := by
      have := hfidE.2
      unfold fileModifiedAt at this
      rw [hf0] at this
      exact this
    refine ⟨fid, f0, hfidE.1, hf0, hmod, ?_, ?_, ?_⟩
    · rw [← hclear]
      rfl
    · rw [← hclear]
      rfl
    · rw [← hclear]
      rfl

theorem commit_snapshots_frozen_witness :
    ∃ C, (Repository.commit sPre "first").1.commits = sPre.commits ++ [C] ∧
      ∀ p ∈ C.files, ∃ fid f0, fid ∈ sPre.stagedFiles ∧ heapGet sPre.heap fid = some f0 ∧
        f0.modified = true ∧ p.1 = f0.name ∧ p.2.content = f0.stagedContent ∧
        p.2.stagedContent = f0.stagedContent :=
  commit_snapshots_frozen.2.2 sPre "first" (by decide)

/-- C3: from a fresh repository, after any command sequence the history's
commit ids are exactly 1, 2, ..., n in order (the k-th successful commit has
id k, ids start at 1, increase by exactly 1, no gaps, never reused) and the
next-commit-id counter is n + 1. -/
theorem commit_ids_sequential (s : VcsState) (hs : Reachable s) :
    s.commits.map Commit.id = List.range' 1 s.commits.length ∧
    s.nextCommitId = s.commits.length + 1 ∧
    ∀ k, ∀ hk : k < s.commits.length, (s.commits.get ⟨k, hk⟩).id = k + 1 := by
  obtain ⟨h1, h2, _, _, _⟩ := Inv_reachable hs
  refine ⟨h1, h2, ?_⟩
  intro k hk
  have := map_id_range_get s.commits 0 (by simpa using h1) k hk
  simpa using this

theorem commit_ids_sequential_witness :
    sEx.commits.map Commit.id = List.range' 1 sEx.commits.length ∧
    sEx.nextCommitId = sEx.commits.length + 1 :=
  ⟨(commit_ids_sequential sEx ⟨dEx, csEx, rfl⟩).1,
   (commit_ids_sequential sEx ⟨dEx, csEx, rfl⟩).2.1⟩

end VCSim

namespace VCSim

/-- C1: checking out any commit stored in the history succeeds and replaces
the working set wholesale: the resulting working set lists exactly one live
file per snapshot of the commit, in snapshot-map order, each with the content
recorded in the commit for that name; files present before the call but
without a snapshot in the commit are gone (uncommitted staged content
discarded). -/
theorem checkout_restores_commit (s : VcsState) (hs : Reachable s) (C : Commit)
    (hC : C ∈ s.commits) :
    (Repository.checkout s C.id).2 = true ∧
    workingSet (Repository.checkout s C.id).1 = C.files.map (fun p => (p.1, p.2.content)) ∧
    ∀ fid ∈ (Repository.checkout s C.id).1.workingFiles,
      (heapGet (Repository.checkout s C.id).1.heap fid).isSome = true := by
  obtain ⟨h1, h2, h3, h4, h5⟩ := Inv_reachable hs
  have hnd : (s.commits.map Commit.id).Nodup := by
    rw [h1]
    exact List.nodup_range' _ _ 1 Nat.one_pos
  have hfind : findCommit s.commits C.id = some C := findCommit_mem hnd hC
  have hsnap : Commit.getSnapshot C = C.files := getSnapshot_eq_files (h3 C hC)
  have hchk2 : (Repository.checkout s C.id).2 = true := by
    rw [checkout_eq_of_find hfind]
  have hchk1 : (Repository.checkout s C.id).1 =
      restoreFiles { s with workingFiles := [] } C.files := by
    rw [checkout_eq_of_find hfind, hsnap]
  obtain ⟨hv, _, hres⟩ :=
    restoreFiles_spec C.files { s with workingFiles := [] } (by simp) (by simp)
  have hnil : workingFilesVals { s with workingFiles := [] } = [] := by
    simp [workingFilesVals]
  refine ⟨hchk2, ?_, ?_⟩
  · rw [hchk1, workingSet_eq, hv, hnil, List.nil_append, List.map_map]
    apply List.map_congr_left
    intro p hp
    rw [h5 C hC p hp]
    rfl
  · rw [hchk1]
    exact hres

theorem checkout_restores_commit_witness :
    (Repository.checkout sEx cEx.id).2 = true ∧
    workingSet (Repository.checkout sEx cEx.id).1 =
      cEx.files.map (fun p => (p.1, p.2.content)) ∧
    ∀ fid ∈ (Repository.checkout sEx cEx.id).1.workingFiles,
      (heapGet (Repository.checkout sEx cEx.id).1.heap fid).isSome = true :=
  checkout_restores_commit sEx ⟨dEx, csEx, rfl⟩ cEx (by decide)

/-- C10: the files a successful checkout places in the working set are
independent clones of the commit's snapshots: each restored working file has
its dirty flag off, and any later `updateContent` (via the edit command or
directly) leaves the stored history — in particular the checked-out commit's
snapshot contents — unchanged. -/
theorem checkout_restores_clean_clones (s : VcsState) (hs : Reachable s) (C : Commit)
    (hC : C ∈ s.commits) :
    (∀ fid ∈ (Repository.checkout s C.id).1.workingFiles,
      ∃ f, heapGet (Repository.checkout s C.id).1.heap fid = some f ∧ f.modified = false) ∧
    (∀ fname c, (VCS.runEdit (Repository.checkout s C.id).1 fname c).commits = s.commits) ∧
    (∀ fid c, (VCS.editFile (Repository.checkout s C.id).1 fid c).commits = s.commits) := by
  obtain ⟨h1, h2, h3, h4, h5⟩ := Inv_reachable hs
  have hnd : (s.commits.map Commit.id).Nodup := by
    rw [h1]
    exact List.nodup_range' _ _ 1 Nat.one_pos
  have hfind : findCommit s.commits C.id = some C := findCommit_mem hnd hC
  have hsnap : Commit.getSnapshot C = C.files := getSnapshot_eq_files (h3 C hC)
  have hchk1 : (Repository.checkout s C.id).1 =
      restoreFiles { s with workingFiles := [] } C.files := by
    rw [checkout_eq_of_find hfind, hsnap]
  have hcommits : (Repository.checkout s C.id).1.commits = s.commits :=
    (checkout_frame s C.id).1
  obtain ⟨hv, _, hres⟩ :=
    restoreFiles_spec C.files { s with workingFiles := [] } (by simp) (by simp)
  have hnil : workingFilesVals { s with workingFiles := [] } = [] := by
    simp [workingFilesVals]
  refine ⟨?_, ?_, ?_⟩
  · intro fid hfid
    rw [hchk1] at hfid
    rw [hchk1]
    have hsome := hres fid hfid
    obtain ⟨f, hf⟩ := Option.isSome_iff_exists.mp hsome
    refine ⟨f, hf, ?_⟩
    have hmemv : f ∈ workingFilesVals (restoreFiles { s with workingFiles := [] } C.files) :=
      List.mem_filterMap.mpr ⟨fid, hfid, hf⟩
    rw [hv, hnil, List.nil_append] at hmemv
    obtain ⟨p, hp, hpf⟩ := List.mem_map.mp hmemv
    rw [← hpf]
    exact h4 C hC p hp
  · intro fname c
    rw [runEdit_commits, hcommits]
  · intro fid c
    rw [editFile_commits, hcommits]

theorem checkout_restores_clean_clones_witness :
    (∀ fid ∈ (Repository.checkout sEx cEx.id).1.workingFiles,
      ∃ f, heapGet (Repository.checkout sEx cEx.id).1.heap fid = some f ∧
        f.modified = false) ∧
    (∀ fname c, (VCS.runEdit (Repository.checkout sEx cEx.id).1 fname c).commits =
      sEx.commits) ∧
    (∀ fid c, (VCS.editFile (Repository.checkout sEx cEx.id).1 fid c).commits =
      sEx.commits) :=
  checkout_restores_clean_clones sEx ⟨dEx, csEx, rfl⟩ cEx (by decide)

end VCSim
